import Mathlib

/-
Verification of the focus-management subsystem (renpy/display/focus.py).

The Python module is shallowly embedded: widgets are identified by a
natural-number id (object identity), coordinates are rationals, the
mutable per-widget attribute `full_focus_name` is modelled as a map from
widget ids to optional name keys carried in the state, and the widget
callbacks `focus` / `unfocus` are modelled as an emitted event list.
The fatal `assert False` branches of the segment-distance functions are
modelled by an `Option` result (`none` = assertion failure).
-/

namespace Renpy

/-- A focusable widget: an identity plus its static `default` flag.
Two widgets are the same Python object iff their ids agree. -/
structure Widget where
  id : Nat
  default : Bool
deriving DecidableEq, Repr

/-- `full_focus_name`: a (logical name, serial index) pair. Names are
modelled as naturals. -/
abbrev NameKey := Nat × Nat

/-- The `Focus` class: a focusable region. `x = none` models the Python
`None`, the placeless case; `y`, `w`, `h` are read only when `x` is set. -/
structure Focus where
  widget : Widget
  arg : Nat
  x : Option ℚ
  y : ℚ
  w : ℚ
  h : ℚ
deriving DecidableEq, Repr

/-- Events emitted to widgets: `unfocus()` and `focus(default=...)`. -/
inductive Event where
  | unfocus (w : Widget)
  | focus (w : Widget) (dflt : Bool)
deriving DecidableEq, Repr

/-- The mutable state of the module: the focused widget
(`scene_lists.focused`), the global `grab`, the per-widget
`full_focus_name` attribute store (keyed by widget id), and the
current `focus_list`. -/
structure FocusState where
  focused : Option Widget
  grab : Option Widget
  store : Nat → Option NameKey
  focus_list : List Focus

/-- `change_focus(newfocus)`: no-op under a grab or when the target widget
is the current one; otherwise unfocuses the current widget, focuses the
new one, and commits it. Returns the new state and the emitted events. -/
def change_focus (s : FocusState) (newfocus : Option Focus) : FocusState × List Event :=
  if s.grab.isSome then (s, [])
  else
    let widget := newfocus.map Focus.widget
    if s.focused = widget then (s, [])
    else
      let evs1 := match s.focused with
        | none => []
        | some c => [Event.unfocus c]
      let evs2 := match widget with
        | none => []
        | some t => [Event.focus t false]
      ({ s with focused := widget }, evs1 ++ evs2)

/-- The hit test of `mouse_handler`: both bounds inclusive. -/
def hitB (x y : ℚ) (f : Focus) : Bool :=
  match f.x with
  | none => false
  | some fx => decide (fx ≤ x ∧ x ≤ fx + f.w ∧ f.y ≤ y ∧ y ≤ f.y + f.h)

/-- The scanning loop of `mouse_handler`: the first region hit wins; a
placeless region overwrites the running `default`; with no hit the last
`default` seen is returned. -/
def mouseSelect (x y : ℚ) : List Focus → Option Focus → Option Focus
  | [], dflt => dflt
  | f :: rest, dflt =>
    match f.x with
    | none => mouseSelect x y rest (some f)
    | some _ => if hitB x y f then some f else mouseSelect x y rest dflt

/-- `mouse_handler(ev)` at pointer position (x, y). -/
def mouse_handler (s : FocusState) (x y : ℚ) : FocusState × List Event :=
  change_focus s (mouseSelect x y s.focus_list none)

/-- Python truthiness of `f.x`: `not f.x` holds when x is None or zero. -/
def truthyX (f : Focus) : Bool :=
  match f.x with
  | none => false
  | some q => decide (q ≠ 0)

/-- The score computed by `focus_extreme`. Only used on regions whose
x is set. -/
def score (xmul ymul wmul hmul : ℚ) (f : Focus) : ℚ :=
  (f.x.getD 0) * xmul + f.y * ymul + f.w * wmul + f.h * hmul

/-- The accumulation loop of `focus_extreme`: skips regions with falsy x,
keeps the first strict maximum of the score. -/
def extremeLoop (xmul ymul wmul hmul : ℚ) :
    List Focus → Option Focus → ℚ → Option Focus × ℚ
  | [], best, bestScore => (best, bestScore)
  | f :: rest, best, bestScore =>
    if truthyX f then
      if bestScore < score xmul ymul wmul hmul f then
        extremeLoop xmul ymul wmul hmul rest (some f) (score xmul ymul wmul hmul f)
      else
        extremeLoop xmul ymul wmul hmul rest best bestScore
    else
      extremeLoop xmul ymul wmul hmul rest best bestScore

/-- `focus_extreme(xmul, ymul, wmul, hmul)`: runs the loop starting from
the sentinel score -(65536**2) and changes focus to the winner, if any. -/
def focus_extreme (s : FocusState) (xmul ymul wmul hmul : ℚ) : FocusState × List Event :=
  match (extremeLoop xmul ymul wmul hmul s.focus_list none (-(65536 ^ 2))).1 with
  | some f => change_focus s (some f)
  | none => (s, [])

/-- `points_dist`: weighted squared distance between two points. -/
def points_dist (x0 y0 x1 y1 xfudge yfudge : ℚ) : ℚ :=
  ((x0 - x1) * xfudge) ^ 2 + ((y0 - y1) * yfudge) ^ 2

/-- `horiz_line_dist`: distance between two horizontal segments; `pen` is
`renpy.config.focus_crossrange_penalty`. `none` models the fatal
`assert False`. -/
def horiz_line_dist (pen ax0 ay0 ax1 ay1 bx0 by0 bx1 by1 : ℚ) : Option ℚ :=
  if (bx0 ≤ ax0 ∧ ax0 ≤ ax1 ∧ ax1 ≤ bx1) ∨
     (ax0 ≤ bx0 ∧ bx0 ≤ bx1 ∧ bx1 ≤ ax1) ∨
     (ax0 ≤ bx0 ∧ bx0 ≤ ax1 ∧ ax1 ≤ bx1) ∨
     (bx0 ≤ ax0 ∧ ax0 ≤ bx1 ∧ bx1 ≤ ax1) then
    some ((ay0 - by0) ^ 2)
  else if ax0 ≤ ax1 ∧ ax1 ≤ bx0 ∧ bx0 ≤ bx1 then
    some (points_dist ax1 ay1 bx0 by0 pen 1)
  else if bx0 ≤ bx1 ∧ bx1 ≤ ax0 ∧ ax0 ≤ ax1 then
    some (points_dist ax0 ay0 bx1 by1 pen 1)
  else
    none

/-- `verti_line_dist`: mirror of `horiz_line_dist` with axes swapped. -/
def verti_line_dist (pen ax0 ay0 ax1 ay1 bx0 by0 bx1 by1 : ℚ) : Option ℚ :=
  if (by0 ≤ ay0 ∧ ay0 ≤ ay1 ∧ ay1 ≤ by1) ∨
     (ay0 ≤ by0 ∧ by0 ≤ by1 ∧ by1 ≤ ay1) ∨
     (ay0 ≤ by0 ∧ by0 ≤ ay1 ∧ ay1 ≤ by1) ∨
     (by0 ≤ ay0 ∧ ay0 ≤ by1 ∧ by1 ≤ ay1) then
    some ((ax0 - bx0) ^ 2)
  else if ay0 ≤ ay1 ∧ ay1 ≤ by0 ∧ by0 ≤ by1 then
    some (points_dist ax1 ay1 bx0 by0 1 pen)
  else if by0 ≤ by1 ∧ by1 ≤ ay0 ∧ ay0 ≤ ay1 then
    some (points_dist ax0 ay0 bx1 by1 1 pen)
  else
    none

/-- The name-assignment loop of `before_interact`: walks the enumerated
(widget, name) pairs, giving each widget the key (name, serial) where the
serial counter `nc` counts earlier occurrences of the same name. Updates
the `full_focus_name` store. -/
def assignNames : List (Widget × Nat) → (Nat → Option NameKey) → (Nat → Nat) →
    (Nat → Option NameKey)
  | [], store, _ => store
  | (f, n) :: rest, store, nc =>
    assignNames rest (fun i => if i = f.id then some (n, nc n) else store i)
      (fun m => if m = n then nc n + 1 else nc m)

/-- The match loop of `before_interact`: the first enumerated widget whose
stored full focus name equals `ckey` wins. -/
def findMatch (store : Nat → Option NameKey) (ckey : Option NameKey) :
    List (Widget × Nat) → Option Widget
  | [] => none
  | (f, _) :: rest => if store f.id = ckey then some f else findMatch store ckey rest

/-- The default-widget loop of `before_interact`: the first enumerated
widget whose `default` flag is set. -/
def findDefault : List (Widget × Nat) → Option Widget
  | [] => none
  | (f, _) :: rest => if f.default then some f else findDefault rest

/-- `before_interact(root)` with the enumeration `fwn` produced by
`root.find_focusable`: clears the grab, assigns full focus names, restores
the previous focus by name key, else falls back to the first default
widget, else clears focus; unfocuses everyone else and focuses the winner
with default=True. -/
def before_interact (s : FocusState) (fwn : List (Widget × Nat)) :
    FocusState × List Event :=
  let store := assignNames fwn s.store (fun _ => 0)
  let matched : Option Widget :=
    match s.focused with
    | none => none
    | some c => findMatch store (store c.id) fwn
  let current : Option Widget :=
    match matched with
    | some f => some f
    | none => findDefault fwn
  let evs1 := (fwn.filter (fun p => decide (some p.1 ≠ current))).map
    (fun p => Event.unfocus p.1)
  let evs2 := match current with
    | none => []
    | some c => [Event.focus c true]
  ({ focused := current, grab := none, store := store, focus_list := s.focus_list },
   evs1 ++ evs2)

/-- The search for the current focus in `focus_nearest`:
the first region whose widget equals the focused one. -/
def findWidget (current : Widget) : List Focus → Option Focus
  | [] => none
  | f :: rest => if f.widget = current then some f else findWidget current rest

/-- The candidate loop of `focus_nearest`: skips the current region,
remembers the last placeless region, filters by the direction condition,
and keeps the strict minimum of `line_dist` scores, starting from the
threshold passed in `best`. -/
def nearestLoop (line_dist : ℚ → ℚ → ℚ → ℚ → ℚ → ℚ → ℚ → ℚ → ℚ)
    (condition : Focus → Focus → Bool) (from_focus : Focus)
    (fx0 fy0 fx1 fy1 to_x0 to_y0 to_x1 to_y1 : ℚ) :
    List Focus → Option Focus → Option Focus → ℚ → Option Focus × Option Focus × ℚ
  | [], placeless, new_focus, best => (placeless, new_focus, best)
  | f :: rest, placeless, new_focus, best =>
    if f = from_focus then
      nearestLoop line_dist condition from_focus fx0 fy0 fx1 fy1
        to_x0 to_y0 to_x1 to_y1 rest placeless new_focus best
    else
      match f.x with
      | none =>
        nearestLoop line_dist condition from_focus fx0 fy0 fx1 fy1
          to_x0 to_y0 to_x1 to_y1 rest (some f) new_focus best
      | some fx =>
        if condition from_focus f then
          let d := line_dist fx0 fy0 fx1 fy1 (fx + f.w * to_x0) (f.y + f.h * to_y0)
            (fx + f.w * to_x1) (f.y + f.h * to_y1)
          if d < best then
            nearestLoop line_dist condition from_focus fx0 fy0 fx1 fy1
              to_x0 to_y0 to_x1 to_y1 rest placeless (some f) d
          else
            nearestLoop line_dist condition from_focus fx0 fy0 fx1 fy1
              to_x0 to_y0 to_x1 to_y1 rest placeless new_focus best
        else
          nearestLoop line_dist condition from_focus fx0 fy0 fx1 fy1
            to_x0 to_y0 to_x1 to_y1 rest placeless new_focus best

/-- `focus_nearest(...)`: the directional-navigation core. `pen` is
`renpy.config.focus_crossrange_penalty`; `line_dist` and `condition` are
the per-direction distance function and admissibility predicate. -/
def focus_nearest (s : FocusState)
    (from_x0 from_y0 from_x1 from_y1 to_x0 to_y0 to_x1 to_y1 : ℚ)
    (line_dist : ℚ → ℚ → ℚ → ℚ → ℚ → ℚ → ℚ → ℚ → ℚ)
    (condition : Focus → Focus → Bool) (pen : ℚ)
    (xmul ymul wmul hmul : ℚ) : FocusState × List Event :=
  match s.focus_list with
  | [] => (s, [])
  | f0 :: _ =>
    match s.focused with
    | none => change_focus s (some f0)
    | some current =>
      match findWidget current s.focus_list with
      | none => change_focus s (some f0)
      | some from_focus =>
        match from_focus.x with
        | none => focus_extreme s xmul ymul wmul hmul
        | some fx =>
          let fx0 := fx + from_focus.w * from_x0
          let fy0 := from_focus.y + from_focus.h * from_y0
          let fx1 := fx + from_focus.w * from_x1
          let fy1 := from_focus.y + from_focus.h * from_y1
          let r := nearestLoop line_dist condition from_focus fx0 fy0 fx1 fy1
            to_x0 to_y0 to_x1 to_y1 s.focus_list none none ((65536 * pen) ^ 2)
          match r.2.1 with
          | some nf => change_focus s (some nf)
          | none =>
            match r.1 with
            | some p => change_focus s (some p)
            | none => (s, [])

/-- Weighted distance of a candidate region anchor segment from the
current anchor segment, as computed inside the `focus_nearest` loop. -/
def candDist (ld : ℚ → ℚ → ℚ → ℚ → ℚ → ℚ → ℚ → ℚ → ℚ)
    (fx0 fy0 fx1 fy1 tx0 ty0 tx1 ty1 : ℚ) (f : Focus) (q : ℚ) : ℚ :=
  ld fx0 fy0 fx1 fy1 (q + f.w * tx0) (f.y + f.h * ty0) (q + f.w * tx1) (f.y + f.h * ty1)

/- Concrete fixtures used by witnesses and counterexamples. -/

def w1 : Widget := ⟨1, false⟩

def w2 : Widget := ⟨2, false⟩

def w3 : Widget := ⟨3, true⟩

def emptyStore : Nat → Option NameKey := fun _ => none

def gsState : FocusState := ⟨some w1, some w2, emptyStore, []⟩

def cfState : FocusState := ⟨some w1, none, emptyStore, []⟩

def cfRegion : Focus := ⟨w2, 0, none, 0, 0, 0⟩

def cexF : Focus := ⟨w1, 0, some 0, 5, 1, 1⟩

def cexS : FocusState := ⟨none, none, emptyStore, [cexF]⟩

def wA : Widget := ⟨10, false⟩

def wB : Widget := ⟨11, false⟩

def fA : Focus := ⟨wA, 0, some 0, 0, 10, 10⟩

def fB : Focus := ⟨wB, 0, none, 0, 0, 0⟩

def mhState : FocusState := ⟨none, none, emptyStore, [fA, fB]⟩

def biS : FocusState := ⟨none, none, emptyStore, []⟩

def c2store : Nat → Option NameKey := fun i => if i = 1 then some (7, 0) else none

def c2S : FocusState := ⟨some w1, none, c2store, []⟩

def c2badStore : Nat → Option NameKey := fun i => if i = 1 then some (7, 1) else none

def c2badS : FocusState := ⟨some w1, none, c2badStore, []⟩

def fC : Focus := ⟨w1, 0, some 0, 0, 10, 10⟩

def fP : Focus := ⟨w2, 0, none, 0, 0, 0⟩

def wD : Widget := ⟨4, false⟩

def fD : Focus := ⟨wD, 0, some 20, 0, 10, 10⟩

def nearS : FocusState := ⟨some w1, none, emptyStore, [fC, fD, fP]⟩

end Renpy

namespace Renpy

/-- C4: `horiz_line_dist` is symmetric for well-ordered segments, and on any
positive x-overlap it returns the squared difference of the y-coordinates. -/
theorem horiz_line_dist_symm_overlap (pen ax0 ay0 ax1 ay1 bx0 by0 bx1 by1 : ℚ)
    (ha : ax0 ≤ ax1) (hb : bx0 ≤ bx1) :
    horiz_line_dist pen ax0 ay0 ax1 ay1 bx0 by0 bx1 by1 =
      horiz_line_dist pen bx0 by0 bx1 by1 ax0 ay0 ax1 ay1 ∧
    (max ax0 bx0 < min ax1 bx1 →
      horiz_line_dist pen ax0 ay0 ax1 ay1 bx0 by0 bx1 by1 = some ((ay0 - by0) ^ 2)) := by
  have hovl : max ax0 bx0 < min ax1 bx1 →
      ((bx0 ≤ ax0 ∧ ax0 ≤ ax1 ∧ ax1 ≤ bx1) ∨
       (ax0 ≤ bx0 ∧ bx0 ≤ bx1 ∧ bx1 ≤ ax1) ∨
       (ax0 ≤ bx0 ∧ bx0 ≤ ax1 ∧ ax1 ≤ bx1) ∨
       (bx0 ≤ ax0 ∧ ax0 ≤ bx1 ∧ bx1 ≤ ax1)) := by
    intro hov
    simp only [max_lt_iff, lt_min_iff] at hov
    obtain ⟨⟨hA, hB⟩, hC, hD⟩ := hov
    rcases le_total ax0 bx0 with hab | hab
    · rcases le_total ax1 bx1 with hcd | hcd
      · exact Or.inr (Or.inr (Or.inl ⟨hab, le_of_lt hB, hcd⟩))
      · exact Or.inr (Or.inl ⟨hab, hb, hcd⟩)
    · rcases le_total ax1 bx1 with hcd | hcd
      · exact Or.inl ⟨hab, ha, hcd⟩
      · exact Or.inr (Or.inr (Or.inr ⟨hab, le_of_lt hC, hcd⟩))
  have oswap : ((bx0 ≤ ax0 ∧ ax0 ≤ ax1 ∧ ax1 ≤ bx1) ∨
       (ax0 ≤ bx0 ∧ bx0 ≤ bx1 ∧ bx1 ≤ ax1) ∨
       (ax0 ≤ bx0 ∧ bx0 ≤ ax1 ∧ ax1 ≤ bx1) ∨
       (bx0 ≤ ax0 ∧ ax0 ≤ bx1 ∧ bx1 ≤ ax1)) →
      ((ax0 ≤ bx0 ∧ bx0 ≤ bx1 ∧ bx1 ≤ ax1) ∨
       (bx0 ≤ ax0 ∧ ax0 ≤ ax1 ∧ ax1 ≤ bx1) ∨
       (bx0 ≤ ax0 ∧ ax0 ≤ bx1 ∧ bx1 ≤ ax1) ∨
       (ax0 ≤ bx0 ∧ bx0 ≤ ax1 ∧ ax1 ≤ bx1)) := by
    rintro (h | h | h | h)
    · exact Or.inr (Or.inl h)
    · exact Or.inl h
    · exact Or.inr (Or.inr (Or.inr h))
    · exact Or.inr (Or.inr (Or.inl h))
  have oswap2 : ((ax0 ≤ bx0 ∧ bx0 ≤ bx1 ∧ bx1 ≤ ax1) ∨
       (bx0 ≤ ax0 ∧ ax0 ≤ ax1 ∧ ax1 ≤ bx1) ∨
       (bx0 ≤ ax0 ∧ ax0 ≤ bx1 ∧ bx1 ≤ ax1) ∨
       (ax0 ≤ bx0 ∧ bx0 ≤ ax1 ∧ ax1 ≤ bx1)) →
      ((bx0 ≤ ax0 ∧ ax0 ≤ ax1 ∧ ax1 ≤ bx1) ∨
       (ax0 ≤ bx0 ∧ bx0 ≤ bx1 ∧ bx1 ≤ ax1) ∨
       (ax0 ≤ bx0 ∧ bx0 ≤ ax1 ∧ ax1 ≤ bx1) ∨
       (bx0 ≤ ax0 ∧ ax0 ≤ bx1 ∧ bx1 ≤ ax1)) := by
    rintro (h | h | h | h)
    · exact Or.inr (Or.inl h)
    · exact Or.inl h
    · exact Or.inr (Or.inr (Or.inr h))
    · exact Or.inr (Or.inr (Or.inl h))
  constructor
  · by_cases hO : (bx0 ≤ ax0 ∧ ax0 ≤ ax1 ∧ ax1 ≤ bx1) ∨
       (ax0 ≤ bx0 ∧ bx0 ≤ bx1 ∧ bx1 ≤ ax1) ∨
       (ax0 ≤ bx0 ∧ bx0 ≤ ax1 ∧ ax1 ≤ bx1) ∨
       (bx0 ≤ ax0 ∧ ax0 ≤ bx1 ∧ bx1 ≤ ax1)
    · have hOb := oswap hO
      unfold horiz_line_dist
      rw [if_pos hO, if_pos hOb]
      exact congrArg some (by ring)
    · have hOb : ¬ ((ax0 ≤ bx0 ∧ bx0 ≤ bx1 ∧ bx1 ≤ ax1) ∨
          (bx0 ≤ ax0 ∧ ax0 ≤ ax1 ∧ ax1 ≤ bx1) ∨
          (bx0 ≤ ax0 ∧ ax0 ≤ bx1 ∧ bx1 ≤ ax1) ∨
          (ax0 ≤ bx0 ∧ bx0 ≤ ax1 ∧ ax1 ≤ bx1)) := fun hc => hO (oswap2 hc)
      by_cases hL : ax0 ≤ ax1 ∧ ax1 ≤ bx0 ∧ bx0 ≤ bx1
      · have hR : ¬ (bx0 ≤ bx1 ∧ bx1 ≤ ax0 ∧ ax0 ≤ ax1) := by
          intro hR
          exact hO (Or.inr (Or.inr (Or.inl
            ⟨by linarith [hL.2.1, hL.2.2, hR.2.1], by linarith [hL.2.1, hR.2.1, hR.2.2],
             by linarith [hL.2.1, hL.2.2, hR.2.1, hR.2.2]⟩)))
        unfold horiz_line_dist
        rw [if_neg hO, if_pos hL, if_neg hOb, if_neg hR, if_pos hL]
        exact congrArg some (by unfold points_dist; ring)
      · by_cases hR : bx0 ≤ bx1 ∧ bx1 ≤ ax0 ∧ ax0 ≤ ax1
        · unfold horiz_line_dist
          rw [if_neg hO, if_neg hL, if_pos hR, if_neg hOb, if_pos hR]
          exact congrArg some (by unfold points_dist; ring)
        · unfold horiz_line_dist
          rw [if_neg hO, if_neg hL, if_neg hR, if_neg hOb, if_neg hR, if_neg hL]
  · intro hov
    unfold horiz_line_dist
    rw [if_pos (hovl hov)]

/-- C4 witness: the literal instance A=(0,0)-(10,0), B=(5,5)-(15,5) gives 25,
through the overlap part of the theorem. -/
theorem horiz_line_dist_symm_overlap_witness :
    horiz_line_dist 1024 0 0 10 0 5 5 15 5 = some 25 := by
  have h := (horiz_line_dist_symm_overlap 1024 0 0 10 0 5 5 15 5 (by norm_num)
    (by norm_num)).2 (by rw [max_lt_iff, lt_min_iff]; norm_num)
  rw [h]
  norm_num

/-- C5: for well-ordered segments the case analysis of `horiz_line_dist`
and `verti_line_dist` is exhaustive: the `assert False` branch is
unreachable and a value is returned. -/
theorem line_dist_total (pen ax0 ay0 ax1 ay1 bx0 by0 bx1 by1 : ℚ) :
    (ax0 ≤ ax1 → bx0 ≤ bx1 →
      (horiz_line_dist pen ax0 ay0 ax1 ay1 bx0 by0 bx1 by1).isSome) ∧
    (ay0 ≤ ay1 → by0 ≤ by1 →
      (verti_line_dist pen ax0 ay0 ax1 ay1 bx0 by0 bx1 by1).isSome) := by
  constructor
  · intro ha hb
    unfold horiz_line_dist
    split_ifs with h1 h2 h3
    · rfl
    · rfl
    · rfl
    · exfalso
      rcases le_total ax1 bx0 with hc | hc
      · exact h2 ⟨ha, hc, hb⟩
      · rcases le_total bx1 ax0 with hd | hd
        · exact h3 ⟨hb, hd, ha⟩
        · rcases le_total ax0 bx0 with he | he
          · rcases le_total ax1 bx1 with hf | hf
            · exact h1 (Or.inr (Or.inr (Or.inl ⟨he, hc, hf⟩)))
            · exact h1 (Or.inr (Or.inl ⟨he, hb, hf⟩))
          · rcases le_total ax1 bx1 with hf | hf
            · exact h1 (Or.inl ⟨he, ha, hf⟩)
            · exact h1 (Or.inr (Or.inr (Or.inr ⟨he, hd, hf⟩)))
  · intro ha hb
    unfold verti_line_dist
    split_ifs with h1 h2 h3
    · rfl
    · rfl
    · rfl
    · exfalso
      rcases le_total ay1 by0 with hc | hc
      · exact h2 ⟨ha, hc, hb⟩
      · rcases le_total by1 ay0 with hd | hd
        · exact h3 ⟨hb, hd, ha⟩
        · rcases le_total ay0 by0 with he | he
          · rcases le_total ay1 by1 with hf | hf
            · exact h1 (Or.inr (Or.inr (Or.inl ⟨he, hc, hf⟩)))
            · exact h1 (Or.inr (Or.inl ⟨he, hb, hf⟩))
          · rcases le_total ay1 by1 with hf | hf
            · exact h1 (Or.inl ⟨he, ha, hf⟩)
            · exact h1 (Or.inr (Or.inr (Or.inr ⟨he, hd, hf⟩)))

/-- C5 witness: both distance functions return a value on concrete
well-ordered segments. -/
theorem line_dist_total_witness :
    (horiz_line_dist 1024 0 0 10 0 20 3 30 3).isSome = true ∧
    (verti_line_dist 1024 0 0 0 10 3 20 3 30).isSome = true := by
  constructor
  · exact (line_dist_total 1024 0 0 10 0 20 3 30 3).1 (by norm_num) (by norm_num)
  · exact (line_dist_total 1024 0 0 0 10 3 20 3 30).2 (by norm_num) (by norm_num)

/-- C6: while a grab is set, `change_focus` is a no-op for every argument
(state unchanged, no callback fired), and `before_interact` clears the
grab at its start, after which `change_focus` is governed only by its
own focus test again. -/
theorem grab_suppresses (s : FocusState) (nf : Option Focus)
    (fwn : List (Widget × Nat)) (hg : s.grab.isSome = true) :
    change_focus s nf = (s, []) ∧ (before_interact s fwn).1.grab = none := by
  refine ⟨?_, rfl⟩
  unfold change_focus
  rw [if_pos hg]

/-- C6 witness: a concrete grabbed state. -/
theorem grab_suppresses_witness :
    change_focus gsState none = (gsState, []) ∧
    (before_interact gsState []).1.grab = none :=
  grab_suppresses gsState none [] rfl

/-- C9: with no grab, `change_focus` is a pure no-op when the target
widget equals the current focus; otherwise it emits unfocus-then-focus
and the only state change is the committed new focus. -/
theorem change_focus_no_grab (s : FocusState) (nf : Option Focus) (hg : s.grab = none) :
    (nf.map Focus.widget = s.focused → change_focus s nf = (s, [])) ∧
    (nf.map Focus.widget ≠ s.focused →
      (change_focus s nf).1.focused = nf.map Focus.widget ∧
      (change_focus s nf).1.grab = s.grab ∧
      (change_focus s nf).1.store = s.store ∧
      (change_focus s nf).1.focus_list = s.focus_list ∧
      (change_focus s nf).2 =
        (match s.focused with
          | none => []
          | some c => [Event.unfocus c]) ++
        (match nf.map Focus.widget with
          | none => []
          | some t => [Event.focus t false])) := by
  have hG : ¬ (s.grab.isSome = true) := by rw [hg]; simp
  constructor
  · intro h
    unfold change_focus
    rw [if_neg hG, if_pos h.symm]
  · intro h
    have h2 : ¬ (s.focused = nf.map Focus.widget) := fun hc => h hc.symm
    unfold change_focus
    rw [if_neg hG, if_neg h2]
    exact ⟨rfl, rfl, rfl, rfl, rfl⟩

/-- C9 witness: focusing a region over a different current focus emits
unfocus then focus and commits the new widget. -/
theorem change_focus_no_grab_witness :
    (change_focus cfState (some cfRegion)).1.focused = some w2 ∧
    (change_focus cfState (some cfRegion)).2 =
      [Event.unfocus w1, Event.focus w2 false] := by
  have h := (change_focus_no_grab cfState (some cfRegion) rfl).2 (by decide)
  refine ⟨h.1, ?_⟩
  rw [h.2.2.2.2]
  rfl

/-- Invariant of the `focus_extreme` loop: either no region beats the
running score and the accumulator is returned unchanged, or the loop
returns the first strict maximum of the score among truthy-x regions. -/
theorem extremeLoop_cases (xm ym wm hm : ℚ) (l : List Focus) :
    ∀ (best : Option Focus) (bs : ℚ),
      (extremeLoop xm ym wm hm l best bs = (best, bs) ∧
        ∀ g ∈ l, truthyX g = true → score xm ym wm hm g ≤ bs) ∨
      (∃ f l1 l2, l = l1 ++ f :: l2 ∧
        extremeLoop xm ym wm hm l best bs = (some f, score xm ym wm hm f) ∧
        truthyX f = true ∧ bs < score xm ym wm hm f ∧
        (∀ g ∈ l1, truthyX g = true → score xm ym wm hm g < score xm ym wm hm f) ∧
        (∀ g ∈ l2, truthyX g = true → score xm ym wm hm g ≤ score xm ym wm hm f)) := by
  induction l with
  | nil => intro best bs; left; exact ⟨rfl, by simp⟩
  | cons f rest ih =>
    intro best bs
    by_cases ht : truthyX f = true
    · by_cases hlt : bs < score xm ym wm hm f
      · have hstep : extremeLoop xm ym wm hm (f :: rest) best bs =
            extremeLoop xm ym wm hm rest (some f) (score xm ym wm hm f) := by
          simp [extremeLoop, ht, hlt]
        rcases ih (some f) (score xm ym wm hm f) with ⟨heq, hall⟩ |
          ⟨g, l1, l2, hdec, heq, ht2, hlt2, hl1, hl2⟩
        · right
          exact ⟨f, [], rest, rfl, by rw [hstep, heq], ht, hlt, by simp, hall⟩
        · right
          refine ⟨g, f :: l1, l2, by simp [hdec], by rw [hstep, heq], ht2,
            lt_trans hlt hlt2, ?_, hl2⟩
          intro q hq hqt
          rcases List.mem_cons.mp hq with rfl | hq2
          · exact hlt2
          · exact hl1 q hq2 hqt
      · have hstep : extremeLoop xm ym wm hm (f :: rest) best bs =
            extremeLoop xm ym wm hm rest best bs := by
          simp [extremeLoop, ht, hlt]
        rcases ih best bs with ⟨heq, hall⟩ |
          ⟨g, l1, l2, hdec, heq, ht2, hlt2, hl1, hl2⟩
        · left
          refine ⟨by rw [hstep, heq], ?_⟩
          intro q hq hqt
          rcases List.mem_cons.mp hq with rfl | hq2
          · exact le_of_not_lt hlt
          · exact hall q hq2 hqt
        · right
          refine ⟨g, f :: l1, l2, by simp [hdec], by rw [hstep, heq], ht2, hlt2, ?_, hl2⟩
          intro q hq hqt
          rcases List.mem_cons.mp hq with rfl | hq2
          · exact lt_of_le_of_lt (le_of_not_lt hlt) hlt2
          · exact hl1 q hq2 hqt
    · have hstep : extremeLoop xm ym wm hm (f :: rest) best bs =
          extremeLoop xm ym wm hm rest best bs := by
        simp [extremeLoop, ht]
      rcases ih best bs with ⟨heq, hall⟩ |
        ⟨g, l1, l2, hdec, heq, ht2, hlt2, hl1, hl2⟩
      · left
        refine ⟨by rw [hstep, heq], ?_⟩
        intro q hq hqt
        rcases List.mem_cons.mp hq with rfl | hq2
        · exact absurd hqt ht
        · exact hall q hq2 hqt
      · right
        refine ⟨g, f :: l1, l2, by simp [hdec], by rw [hstep, heq], ht2, hlt2, ?_, hl2⟩
        intro q hq hqt
        rcases List.mem_cons.mp hq with rfl | hq2
        · exact absurd hqt ht
        · exact hl1 q hq2 hqt

/-- C1 (amended): `focus_extreme` selects the first strict score-maximum
among the regions whose x is non-null and non-zero whose score beats the
sentinel -(65536^2), and passes it to `change_focus`; when every such
region scores at most the sentinel (in particular when none exists) the
call is a no-op. -/
theorem focus_extreme_argmax (s : FocusState) (xm ym wm hm : ℚ) :
    (∃ f l1 l2, s.focus_list = l1 ++ f :: l2 ∧ truthyX f = true ∧
      -(65536 ^ 2) < score xm ym wm hm f ∧
      (∀ g ∈ l1, truthyX g = true → score xm ym wm hm g < score xm ym wm hm f) ∧
      (∀ g ∈ l2, truthyX g = true → score xm ym wm hm g ≤ score xm ym wm hm f) ∧
      focus_extreme s xm ym wm hm = change_focus s (some f)) ∨
    ((∀ g ∈ s.focus_list, truthyX g = true → score xm ym wm hm g ≤ -(65536 ^ 2)) ∧
      focus_extreme s xm ym wm hm = (s, [])) := by
  rcases extremeLoop_cases xm ym wm hm s.focus_list none (-(65536 ^ 2)) with
    ⟨heq, hall⟩ | ⟨f, l1, l2, hdec, heq, ht, hlt, hl1, hl2⟩
  · right
    refine ⟨hall, ?_⟩
    unfold focus_extreme
    rw [heq]
  · left
    refine ⟨f, l1, l2, hdec, ht, hlt, hl1, hl2, ?_⟩
    unfold focus_extreme
    rw [heq]

/-- C1 counterexample: the region list holds exactly one non-placeless
region (x = some 0, a zero coordinate), so the claimed argmax over
non-placeless regions would have to be selected; the code skips it
(Python truthiness of x) and the call is a no-op, focusing nothing. -/
theorem focus_extreme_cex :
    cexS.focus_list = [cexF] ∧ cexF.x = some 0 ∧ cexS.focused = none ∧
    (focus_extreme cexS 0 1 0 0).1.focused = none := by
  refine ⟨rfl, rfl, rfl, ?_⟩
  decide

/-- The first hit in list order wins the `mouse_handler` scan. -/
theorem mouseSelect_hit (x y : ℚ) (l1 : List Focus) :
    ∀ (f : Focus) (l2 : List Focus) (dflt : Option Focus),
      hitB x y f = true → (∀ g ∈ l1, hitB x y g = false) →
      mouseSelect x y (l1 ++ f :: l2) dflt = some f := by
  induction l1 with
  | nil =>
    intro f l2 dflt hf _
    cases hx : f.x with
    | none => simp [hitB, hx] at hf
    | some fx => simp [mouseSelect, hx, hf]
  | cons g l1x ih =>
    intro f l2 dflt hf hl1
    have hg : hitB x y g = false := hl1 g (List.mem_cons_self g l1x)
    have hrest : ∀ q ∈ l1x, hitB x y q = false :=
      fun q hq => hl1 q (List.mem_cons_of_mem _ hq)
    cases hx : g.x with
    | none =>
      show mouseSelect x y (g :: (l1x ++ f :: l2)) dflt = some f
      simp only [mouseSelect, hx]
      exact ih f l2 (some g) hf hrest
    | some gx =>
      show mouseSelect x y (g :: (l1x ++ f :: l2)) dflt = some f
      simp only [mouseSelect, hx, hg, Bool.false_eq_true, if_false]
      exact ih f l2 dflt hf hrest

/-- With no hit anywhere, the scan returns the running default (and the
list has no placeless region), or some placeless region of the list. -/
theorem mouseSelect_nohit (x y : ℚ) (l : List Focus) :
    ∀ (dflt : Option Focus), (∀ g ∈ l, hitB x y g = false) →
      (mouseSelect x y l dflt = dflt ∧ ∀ g ∈ l, g.x ≠ none) ∨
      (∃ p, p ∈ l ∧ p.x = none ∧ mouseSelect x y l dflt = some p) := by
  induction l with
  | nil => intro dflt _; left; exact ⟨rfl, by simp⟩
  | cons f rest ih =>
    intro dflt h
    have hf : hitB x y f = false := h f (List.mem_cons_self f rest)
    have hrest : ∀ g ∈ rest, hitB x y g = false :=
      fun g hg => h g (List.mem_cons_of_mem _ hg)
    cases hx : f.x with
    | none =>
      rcases ih (some f) hrest with ⟨heq, hall⟩ | ⟨p, hp, hpx, heq⟩
      · right
        refine ⟨f, List.mem_cons_self _ _, hx, ?_⟩
        simp only [mouseSelect, hx]
        exact heq
      · right
        refine ⟨p, List.mem_cons_of_mem _ hp, hpx, ?_⟩
        simp only [mouseSelect, hx]
        exact heq
    | some fx =>
      rcases ih dflt hrest with ⟨heq, hall⟩ | ⟨p, hp, hpx, heq⟩
      · left
        constructor
        · simp only [mouseSelect, hx, hf, Bool.false_eq_true, if_false]
          exact heq
        · intro g hg
          rcases List.mem_cons.mp hg with rfl | hg2
          · rw [hx]; simp
          · exact hall g hg2
      · right
        refine ⟨p, List.mem_cons_of_mem _ hp, hpx, ?_⟩
        simp only [mouseSelect, hx, hf, Bool.false_eq_true, if_false]
        exact heq

/-- C8: `mouse_handler` passes to `change_focus` the first region in list
order containing the pointer; with no hit, a placeless region of the list
(as default) or none; in particular (5,5) focuses A and (100,100)
focuses the placeless B in the two-region scenario. -/
theorem mouse_handler_spec (s : FocusState) (x y : ℚ) :
    mouse_handler s x y = change_focus s (mouseSelect x y s.focus_list none) ∧
    (∀ l1 f l2, s.focus_list = l1 ++ f :: l2 → hitB x y f = true →
      (∀ g ∈ l1, hitB x y g = false) →
      mouseSelect x y s.focus_list none = some f) ∧
    ((∀ g ∈ s.focus_list, hitB x y g = false) →
      (mouseSelect x y s.focus_list none = none ∧ ∀ g ∈ s.focus_list, g.x ≠ none) ∨
      (∃ p, p ∈ s.focus_list ∧ p.x = none ∧
        mouseSelect x y s.focus_list none = some p)) ∧
    (mouse_handler mhState 5 5).1.focused = some wA ∧
    (mouse_handler mhState 100 100).1.focused = some wB := by
  refine ⟨rfl, ?_, ?_, ?_, ?_⟩
  · intro l1 f l2 hdec hf hl1
    rw [hdec]
    exact mouseSelect_hit x y l1 f l2 none hf hl1
  · intro h
    exact mouseSelect_nohit x y s.focus_list none h
  · show (change_focus mhState (mouseSelect 5 5 mhState.focus_list none)).1.focused = some wA
    norm_num [mouseSelect, hitB, change_focus, mhState, fA, fB, wA, wB, emptyStore]
    rfl
  · show (change_focus mhState (mouseSelect 100 100 mhState.focus_list none)).1.focused = some wB
    norm_num [mouseSelect, hitB, change_focus, mhState, fA, fB, wA, wB, emptyStore]
    rfl

end Renpy

namespace Renpy

/-- `assignNames` leaves the stored key of any id that is not enumerated
untouched. -/
theorem assignNames_not_mem (fwn : List (Widget × Nat)) :
    ∀ (store : Nat → Option NameKey) (nc : Nat → Nat) (i : Nat),
      (∀ p ∈ fwn, p.1.id ≠ i) → assignNames fwn store nc i = store i := by
  induction fwn with
  | nil => intro store nc i _; rfl
  | cons p rest ih =>
    intro store nc i h
    obtain ⟨f, n⟩ := p
    have hne : f.id ≠ i := h (f, n) (List.mem_cons_self _ _)
    show assignNames rest _ _ i = store i
    rw [ih _ _ i (fun q hq => h q (List.mem_cons_of_mem _ hq))]
    exact if_neg (Ne.symm hne)

/-- The key `assignNames` stores for a widget is its enumeration name
paired with the occurrence count of that name before its position
(plus the incoming counter). -/
theorem assignNames_at (l1 : List (Widget × Nat)) :
    ∀ (l2 : List (Widget × Nat)) (f : Widget) (n : Nat)
      (store : Nat → Option NameKey) (nc : Nat → Nat),
      (((l1 ++ (f, n) :: l2).map (fun p => p.1.id)).Nodup) →
      assignNames (l1 ++ (f, n) :: l2) store nc f.id =
        some (n, nc n + l1.countP (fun p => decide (p.2 = n))) := by
  induction l1 with
  | nil =>
    intro l2 f n store nc hids
    simp only [List.nil_append, List.countP_nil, Nat.add_zero]
    have hnotin : ∀ p ∈ l2, p.1.id ≠ f.id := by
      intro p hp heq
      simp only [List.nil_append, List.map_cons, List.nodup_cons] at hids
      exact hids.1 (List.mem_map.mpr ⟨p, hp, heq⟩)
    show assignNames l2 _ _ f.id = _
    rw [assignNames_not_mem l2 _ _ f.id hnotin]
    exact if_pos rfl
  | cons p l1x ih =>
    intro l2 f n store nc hids
    obtain ⟨g, m⟩ := p
    have hids2 : (((l1x ++ (f, n) :: l2).map (fun p => p.1.id)).Nodup) := by
      simp only [List.cons_append, List.map_cons, List.nodup_cons] at hids
      exact hids.2
    show assignNames (l1x ++ (f, n) :: l2) _ _ f.id = _
    rw [ih l2 f n _ _ hids2]
    simp only [List.countP_cons, Option.some.injEq, Prod.mk.injEq, true_and]
    rcases eq_or_ne n m with hmn | hmn
    · subst hmn
      simp
      omega
    · simp [if_neg hmn, Ne.symm hmn]

/-- Scanning the enumeration with the key of the widget at a given
position finds exactly that widget: every earlier widget has a
different name or a strictly smaller serial. -/
theorem findMatch_assign (l1 : List (Widget × Nat)) :
    ∀ (l2 : List (Widget × Nat)) (f : Widget) (n : Nat)
      (store : Nat → Option NameKey) (nc : Nat → Nat),
      (((l1 ++ (f, n) :: l2).map (fun p => p.1.id)).Nodup) →
      findMatch (assignNames (l1 ++ (f, n) :: l2) store nc)
        (some (n, nc n + l1.countP (fun p => decide (p.2 = n))))
        (l1 ++ (f, n) :: l2) = some f := by
  induction l1 with
  | nil =>
    intro l2 f n store nc hids
    have hkey := assignNames_at [] l2 f n store nc hids
    simp only [List.nil_append, List.countP_nil, Nat.add_zero] at hkey ⊢
    simp only [findMatch]
    rw [if_pos hkey]
  | cons p l1x ih =>
    intro l2 f n store nc hids
    obtain ⟨g, m⟩ := p
    have hgkey : assignNames ((g, m) :: (l1x ++ (f, n) :: l2)) store nc g.id =
        some (m, nc m) := by
      have h := assignNames_at [] (l1x ++ (f, n) :: l2) g m store nc
        (by simpa using hids)
      simpa using h
    have hne : assignNames ((g, m) :: (l1x ++ (f, n) :: l2)) store nc g.id ≠
        some (n, nc n + ((g, m) :: l1x).countP (fun p => decide (p.2 = n))) := by
      rw [hgkey]
      intro hc
      simp only [Option.some.injEq, Prod.mk.injEq] at hc
      obtain ⟨hc1, hc2⟩ := hc
      subst hc1
      simp only [List.countP_cons] at hc2
      simp at hc2
    have hids2 : (((l1x ++ (f, n) :: l2).map (fun p => p.1.id)).Nodup) := by
      simp only [List.cons_append, List.map_cons, List.nodup_cons] at hids
      exact hids.2
    simp only [List.cons_append]
    show findMatch _ _ ((g, m) :: (l1x ++ (f, n) :: l2)) = some f
    simp only [findMatch]
    rw [if_neg hne]
    have hstep : assignNames ((g, m) :: (l1x ++ (f, n) :: l2)) store nc =
        assignNames (l1x ++ (f, n) :: l2)
          (fun i => if i = g.id then some (m, nc m) else store i)
          (fun k => if k = m then nc m + 1 else nc k) := rfl
    rw [hstep]
    have hih := ih l2 f n (fun i => if i = g.id then some (m, nc m) else store i)
      (fun k => if k = m then nc m + 1 else nc k) hids2
    have hck : (some (n, nc n + ((g, m) :: l1x).countP (fun p => decide (p.2 = n)))
        : Option NameKey) =
        some (n, (fun k => if k = m then nc m + 1 else nc k) n +
          l1x.countP (fun p => decide (p.2 = n))) := by
      simp only [List.countP_cons, Option.some.injEq, Prod.mk.injEq, true_and]
      rcases eq_or_ne n m with hmn | hmn
      · subst hmn
        simp
        omega
      · simp [if_neg hmn, Ne.symm hmn]
    rw [hck]
    exact hih

/-- The focus resolved by `before_interact`, written out. -/
theorem before_interact_focused_eq (s : FocusState) (fwn : List (Widget × Nat)) :
    (before_interact s fwn).1.focused =
      (match (match s.focused with
        | none => none
        | some c => findMatch (assignNames fwn s.store (fun _ => 0))
            ((assignNames fwn s.store (fun _ => 0)) c.id) fwn) with
       | some f => some f
       | none => findDefault fwn) := rfl

/-- The store written by `before_interact`. -/
theorem before_interact_store_eq (s : FocusState) (fwn : List (Widget × Nat)) :
    (before_interact s fwn).1.store = assignNames fwn s.store (fun _ => 0) := rfl

/-- With no default flag set anywhere, `findDefault` returns none. -/
theorem findDefault_none (l : List (Widget × Nat)) :
    (∀ p ∈ l, p.1.default = false) → findDefault l = none := by
  induction l with
  | nil => intro _; rfl
  | cons p rest ih =>
    intro h
    obtain ⟨g, m⟩ := p
    have hg : g.default = false := h (g, m) (List.mem_cons_self _ _)
    simp only [findDefault, hg, Bool.false_eq_true, if_false]
    exact ih (fun q hq => h q (List.mem_cons_of_mem _ hq))

/-- `findDefault` returns the first widget with the default flag. -/
theorem findDefault_first (l1 : List (Widget × Nat)) :
    ∀ (p : Widget × Nat) (l2 : List (Widget × Nat)), p.1.default = true →
      (∀ q ∈ l1, q.1.default = false) →
      findDefault (l1 ++ p :: l2) = some p.1 := by
  induction l1 with
  | nil =>
    intro p l2 hp _
    obtain ⟨g, m⟩ := p
    simp only [List.nil_append, findDefault]
    rw [if_pos hp]
  | cons q l1x ih =>
    intro p l2 hp hl1
    obtain ⟨g, m⟩ := q
    have hg : g.default = false := hl1 (g, m) (List.mem_cons_self _ _)
    simp only [List.cons_append, findDefault, hg, Bool.false_eq_true, if_false]
    exact ih p l2 hp (fun r hr => hl1 r (List.mem_cons_of_mem _ hr))

/-- A widget found by `findMatch` is enumerated. -/
theorem findMatch_mem (store : Nat → Option NameKey) (ckey : Option NameKey)
    (l : List (Widget × Nat)) :
    ∀ w, findMatch store ckey l = some w → ∃ m, (w, m) ∈ l := by
  induction l with
  | nil => intro w h; exact Option.noConfusion h
  | cons p rest ih =>
    intro w h
    obtain ⟨g, m⟩ := p
    by_cases hc : store g.id = ckey
    · simp only [findMatch, if_pos hc, Option.some.injEq] at h
      exact ⟨m, by rw [← h]; exact List.mem_cons_self _ _⟩
    · simp only [findMatch, if_neg hc] at h
      obtain ⟨m2, hm⟩ := ih w h
      exact ⟨m2, List.mem_cons_of_mem _ hm⟩

/-- A widget found by `findDefault` is enumerated. -/
theorem findDefault_mem (l : List (Widget × Nat)) :
    ∀ w, findDefault l = some w → ∃ m, (w, m) ∈ l := by
  induction l with
  | nil => intro w h; exact Option.noConfusion h
  | cons p rest ih =>
    intro w h
    obtain ⟨g, m⟩ := p
    by_cases hc : g.default = true
    · simp only [findDefault, if_pos hc, Option.some.injEq] at h
      exact ⟨m, by rw [← h]; exact List.mem_cons_self _ _⟩
    · simp only [findDefault, if_neg hc] at h
      obtain ⟨m2, hm⟩ := ih w h
      exact ⟨m2, List.mem_cons_of_mem _ hm⟩

end Renpy

namespace Renpy

/-- C3: when no enumerated widget has an assigned name key equal to the
key of the previous focus (or there is no previous focus), the first default-flagged
widget in enumeration order becomes the focus; with no default flag, the
focus becomes none. -/
theorem before_interact_default_fallback (s : FocusState) (fwn : List (Widget × Nat))
    (hnm : ∀ c, s.focused = some c →
      findMatch (assignNames fwn s.store (fun _ => 0))
        ((assignNames fwn s.store (fun _ => 0)) c.id) fwn = none) :
    ((∀ p ∈ fwn, p.1.default = false) → (before_interact s fwn).1.focused = none) ∧
    (∀ l1 p l2, fwn = l1 ++ p :: l2 → p.1.default = true →
      (∀ q ∈ l1, q.1.default = false) →
      (before_interact s fwn).1.focused = some p.1) := by
  have hmatched : (match s.focused with
      | none => none
      | some c => findMatch (assignNames fwn s.store (fun _ => 0))
          ((assignNames fwn s.store (fun _ => 0)) c.id) fwn) = (none : Option Widget) := by
    cases hf : s.focused with
    | none => rfl
    | some c => exact hnm c hf
  constructor
  · intro hd
    rw [before_interact_focused_eq, hmatched]
    show findDefault fwn = none
    exact findDefault_none fwn hd
  · intro l1 p l2 hdec hp hl1
    rw [before_interact_focused_eq, hmatched]
    show findDefault fwn = some p.1
    rw [hdec]
    exact findDefault_first l1 p l2 hp hl1

/-- C3 witness: with no previous focus, the first (and only) widget
flagged default gains the focus. -/
theorem before_interact_default_fallback_witness :
    (before_interact biS [(w1, 0), (w3, 1)]).1.focused = some w3 :=
  (before_interact_default_fallback biS [(w1, 0), (w3, 1)]
      (fun c hc => Option.noConfusion hc)).2
    [(w1, 0)] (w3, 1) [] rfl rfl (by decide)

/-- C2 (amended): if a widget was focused before the pass, the full focus
name stored for it at match time is (n, 0) — serial index 0, the case of a
widget that was the first occurrence of its name — and n occurs exactly
once in the new enumeration, then the widget carrying n becomes the focus,
whatever the rest of the enumeration order is. -/
theorem before_interact_unique_restore (s : FocusState) (fwn : List (Widget × Nat))
    (c w : Widget) (n : Nat)
    (hfoc : s.focused = some c)
    (hids : (fwn.map (fun p => p.1.id)).Nodup)
    (hkey : assignNames fwn s.store (fun _ => 0) c.id = some (n, 0))
    (huniq : fwn.filter (fun p => decide (p.2 = n)) = [(w, n)]) :
    (before_interact s fwn).1.focused = some w := by
  have hmem : (w, n) ∈ fwn :=
    List.mem_of_mem_filter (by rw [huniq]; exact List.mem_singleton_self _)
  obtain ⟨l1, l2, hdec⟩ := List.append_of_mem hmem
  have hfil : l1.filter (fun p => decide (p.2 = n)) ++
      ((w, n) :: l2.filter (fun p => decide (p.2 = n))) = [(w, n)] := by
    have h := huniq
    rw [hdec, List.filter_append, List.filter_cons] at h
    simpa using h
  have hl1nil : l1.filter (fun p => decide (p.2 = n)) = [] := by
    cases hcase : l1.filter (fun p => decide (p.2 = n)) with
    | nil => rfl
    | cons a t =>
      rw [hcase] at hfil
      have hlen := congrArg List.length hfil
      simp at hlen
  have hcount : l1.countP (fun p => decide (p.2 = n)) = 0 := by
    rw [List.countP_eq_length_filter, hl1nil]
    rfl
  have hfind := findMatch_assign l1 l2 w n s.store (fun _ => 0)
    (by rw [← hdec]; exact hids)
  have hfind2 : findMatch (assignNames fwn s.store (fun _ => 0)) (some (n, 0)) fwn =
      some w := by
    rw [hdec]
    simpa [hcount] using hfind
  rw [before_interact_focused_eq, hfoc]
  show (match findMatch (assignNames fwn s.store (fun _ => 0))
      ((assignNames fwn s.store (fun _ => 0)) c.id) fwn with
    | some f => some f
    | none => findDefault fwn) = some w
  rw [hkey, hfind2]

/-- C2 witness: the stored key of the focused widget is (7, 0); name 7 occurs
exactly once in the new enumeration, carried by a different widget, which
gains the focus. -/
theorem before_interact_unique_restore_witness :
    (before_interact c2S [(w2, 7)]).1.focused = some w2 :=
  before_interact_unique_restore c2S [(w2, 7)] w1 w2 7 rfl (by decide) rfl rfl

/-- C2 counterexample: a previously focused widget whose stored key is
(7, 1) — it was the second widget named 7 in the earlier frame — while
name 7 now occurs exactly once: the claim demands the carrier of name 7
be focused, but no name key matches and the focus is cleared. -/
theorem before_interact_unique_restore_cex :
    c2badS.focused = some w1 ∧
    ([(w2, 7)].filter (fun p => decide (p.2 = 7)) = [(w2, 7)]) ∧
    (before_interact c2badS [(w2, 7)]).1.focused = none := by
  exact ⟨rfl, rfl, rfl⟩

/-- C7: a second reconciliation pass over an identical enumeration
resolves the same focus as the first. -/
theorem before_interact_idem (s : FocusState) (fwn : List (Widget × Nat))
    (hids : (fwn.map (fun p => p.1.id)).Nodup) :
    (before_interact (before_interact s fwn).1 fwn).1.focused =
      (before_interact s fwn).1.focused := by
  cases hres : (before_interact s fwn).1.focused with
  | none =>
    have hdef : findDefault fwn = none := by
      rw [before_interact_focused_eq] at hres
      cases hm : (match s.focused with
        | none => none
        | some c => findMatch (assignNames fwn s.store (fun _ => 0))
            ((assignNames fwn s.store (fun _ => 0)) c.id) fwn) with
      | some f => rw [hm] at hres; exact Option.noConfusion hres
      | none => rw [hm] at hres; exact hres
    rw [before_interact_focused_eq, hres]
    show findDefault fwn = none
    exact hdef
  | some w =>
    have hmem : ∃ m, (w, m) ∈ fwn := by
      rw [before_interact_focused_eq] at hres
      cases hm : (match s.focused with
        | none => none
        | some c => findMatch (assignNames fwn s.store (fun _ => 0))
            ((assignNames fwn s.store (fun _ => 0)) c.id) fwn) with
      | some f =>
        rw [hm] at hres
        have hfw : f = w := Option.some.inj hres
        subst hfw
        cases hsf : s.focused with
        | none => rw [hsf] at hm; exact Option.noConfusion hm
        | some c =>
          rw [hsf] at hm
          exact findMatch_mem _ _ fwn f hm
      | none =>
        rw [hm] at hres
        exact findDefault_mem fwn w hres
    obtain ⟨m, hmem2⟩ := hmem
    obtain ⟨l1, l2, hdec⟩ := List.append_of_mem hmem2
    have hids2 : (((l1 ++ (w, m) :: l2).map (fun p => p.1.id)).Nodup) := by
      rw [← hdec]; exact hids
    have hkey2 : assignNames fwn (before_interact s fwn).1.store (fun _ => 0) w.id =
        some (m, l1.countP (fun p => decide (p.2 = m))) := by
      set st := (before_interact s fwn).1.store with hst
      rw [hdec]
      simpa using assignNames_at l1 l2 w m st (fun _ => 0) hids2
    have hfind2 : findMatch
        (assignNames fwn (before_interact s fwn).1.store (fun _ => 0))
        (some (m, l1.countP (fun p => decide (p.2 = m)))) fwn = some w := by
      set st := (before_interact s fwn).1.store with hst
      rw [hdec]
      simpa using findMatch_assign l1 l2 w m st (fun _ => 0) hids2
    rw [before_interact_focused_eq, hres]
    show (match findMatch
        (assignNames fwn (before_interact s fwn).1.store (fun _ => 0))
        ((assignNames fwn (before_interact s fwn).1.store (fun _ => 0)) w.id) fwn with
      | some f => some f
      | none => findDefault fwn) = some w
    rw [hkey2, hfind2]

/-- C7 witness: two passes over a one-widget enumeration agree. -/
theorem before_interact_idem_witness :
    (before_interact (before_interact biS [(w3, 5)]).1 [(w3, 5)]).1.focused =
      (before_interact biS [(w3, 5)]).1.focused :=
  before_interact_idem biS [(w3, 5)] (by decide)

end Renpy

namespace Renpy

/-- If every admissible candidate is at least `best` away, the
`focus_nearest` loop selects nothing: the accumulator and the threshold
come back unchanged, and the placeless slot holds the initial value or
some placeless region of the list. -/
theorem nearestLoop_far (ld : ℚ → ℚ → ℚ → ℚ → ℚ → ℚ → ℚ → ℚ → ℚ)
    (condition : Focus → Focus → Bool) (ff : Focus)
    (fx0 fy0 fx1 fy1 tx0 ty0 tx1 ty1 : ℚ) (l : List Focus) :
    ∀ (pl nf : Option Focus) (best : ℚ),
      (∀ f ∈ l, f ≠ ff → ∀ q, f.x = some q → condition ff f = true →
        best ≤ candDist ld fx0 fy0 fx1 fy1 tx0 ty0 tx1 ty1 f q) →
      (nearestLoop ld condition ff fx0 fy0 fx1 fy1 tx0 ty0 tx1 ty1 l pl nf best).2.1 = nf ∧
      (nearestLoop ld condition ff fx0 fy0 fx1 fy1 tx0 ty0 tx1 ty1 l pl nf best).2.2 = best ∧
      ((nearestLoop ld condition ff fx0 fy0 fx1 fy1 tx0 ty0 tx1 ty1 l pl nf best).1 = pl ∨
        ∃ p, p ∈ l ∧ p.x = none ∧
          (nearestLoop ld condition ff fx0 fy0 fx1 fy1 tx0 ty0 tx1 ty1 l pl nf best).1 = some p) := by
  induction l with
  | nil => intro pl nf best _; exact ⟨rfl, rfl, Or.inl rfl⟩
  | cons f rest ih =>
    intro pl nf best h
    have hrest : ∀ g ∈ rest, g ≠ ff → ∀ q, g.x = some q → condition ff g = true →
        best ≤ candDist ld fx0 fy0 fx1 fy1 tx0 ty0 tx1 ty1 g q :=
      fun g hg => h g (List.mem_cons_of_mem _ hg)
    by_cases hf : f = ff
    · have hstep : nearestLoop ld condition ff fx0 fy0 fx1 fy1 tx0 ty0 tx1 ty1
          (f :: rest) pl nf best =
          nearestLoop ld condition ff fx0 fy0 fx1 fy1 tx0 ty0 tx1 ty1 rest pl nf best := by
        simp [nearestLoop, hf]
      obtain ⟨h1, h2, h3⟩ := ih pl nf best hrest
      rw [hstep]
      refine ⟨h1, h2, ?_⟩
      rcases h3 with h3 | ⟨p, hp, hpx, hpeq⟩
      · exact Or.inl h3
      · exact Or.inr ⟨p, List.mem_cons_of_mem _ hp, hpx, hpeq⟩
    · cases hx : f.x with
      | none =>
        have hstep : nearestLoop ld condition ff fx0 fy0 fx1 fy1 tx0 ty0 tx1 ty1
            (f :: rest) pl nf best =
            nearestLoop ld condition ff fx0 fy0 fx1 fy1 tx0 ty0 tx1 ty1 rest (some f) nf best := by
          simp [nearestLoop, hf, hx]
        obtain ⟨h1, h2, h3⟩ := ih (some f) nf best hrest
        rw [hstep]
        refine ⟨h1, h2, ?_⟩
        rcases h3 with h3 | ⟨p, hp, hpx, hpeq⟩
        · exact Or.inr ⟨f, List.mem_cons_self _ _, hx, h3⟩
        · exact Or.inr ⟨p, List.mem_cons_of_mem _ hp, hpx, hpeq⟩
      | some q =>
        by_cases hc : condition ff f = true
        · have hge : best ≤ candDist ld fx0 fy0 fx1 fy1 tx0 ty0 tx1 ty1 f q :=
            h f (List.mem_cons_self _ _) hf q hx hc
          have hnlt : ¬ (ld fx0 fy0 fx1 fy1 (q + f.w * tx0) (f.y + f.h * ty0)
              (q + f.w * tx1) (f.y + f.h * ty1) < best) := by
            rw [candDist] at hge
            exact not_lt.mpr hge
          have hstep : nearestLoop ld condition ff fx0 fy0 fx1 fy1 tx0 ty0 tx1 ty1
              (f :: rest) pl nf best =
              nearestLoop ld condition ff fx0 fy0 fx1 fy1 tx0 ty0 tx1 ty1 rest pl nf best := by
            simp [nearestLoop, hf, hx, hc, hnlt]
          obtain ⟨h1, h2, h3⟩ := ih pl nf best hrest
          rw [hstep]
          refine ⟨h1, h2, ?_⟩
          rcases h3 with h3 | ⟨p, hp, hpx, hpeq⟩
          · exact Or.inl h3
          · exact Or.inr ⟨p, List.mem_cons_of_mem _ hp, hpx, hpeq⟩
        · have hstep : nearestLoop ld condition ff fx0 fy0 fx1 fy1 tx0 ty0 tx1 ty1
              (f :: rest) pl nf best =
              nearestLoop ld condition ff fx0 fy0 fx1 fy1 tx0 ty0 tx1 ty1 rest pl nf best := by
            simp [nearestLoop, hf, hx, hc]
          obtain ⟨h1, h2, h3⟩ := ih pl nf best hrest
          rw [hstep]
          refine ⟨h1, h2, ?_⟩
          rcases h3 with h3 | ⟨p, hp, hpx, hpeq⟩
          · exact Or.inl h3
          · exact Or.inr ⟨p, List.mem_cons_of_mem _ hp, hpx, hpeq⟩

/-- A region selected by the loop, beyond the incoming accumulator, lies
in the list and is strictly closer than the incoming threshold. -/
theorem nearestLoop_sel (ld : ℚ → ℚ → ℚ → ℚ → ℚ → ℚ → ℚ → ℚ → ℚ)
    (condition : Focus → Focus → Bool) (ff : Focus)
    (fx0 fy0 fx1 fy1 tx0 ty0 tx1 ty1 : ℚ) (l : List Focus) :
    ∀ (pl nf : Option Focus) (best : ℚ) (g : Focus),
      (nearestLoop ld condition ff fx0 fy0 fx1 fy1 tx0 ty0 tx1 ty1 l pl nf best).2.1 = some g →
      nf = some g ∨ (g ∈ l ∧ ∃ q, g.x = some q ∧
        candDist ld fx0 fy0 fx1 fy1 tx0 ty0 tx1 ty1 g q < best) := by
  induction l with
  | nil => intro pl nf best g h; exact Or.inl h
  | cons f rest ih =>
    intro pl nf best g h
    by_cases hf : f = ff
    · rw [show nearestLoop ld condition ff fx0 fy0 fx1 fy1 tx0 ty0 tx1 ty1
          (f :: rest) pl nf best =
          nearestLoop ld condition ff fx0 fy0 fx1 fy1 tx0 ty0 tx1 ty1 rest pl nf best
        from by simp [nearestLoop, hf]] at h
      rcases ih pl nf best g h with h2 | ⟨hmem, hq⟩
      · exact Or.inl h2
      · exact Or.inr ⟨List.mem_cons_of_mem _ hmem, hq⟩
    · cases hx : f.x with
      | none =>
        rw [show nearestLoop ld condition ff fx0 fy0 fx1 fy1 tx0 ty0 tx1 ty1
            (f :: rest) pl nf best =
            nearestLoop ld condition ff fx0 fy0 fx1 fy1 tx0 ty0 tx1 ty1 rest (some f) nf best
          from by simp [nearestLoop, hf, hx]] at h
        rcases ih (some f) nf best g h with h2 | ⟨hmem, hq⟩
        · exact Or.inl h2
        · exact Or.inr ⟨List.mem_cons_of_mem _ hmem, hq⟩
      | some q =>
        by_cases hc : condition ff f = true
        · by_cases hlt : ld fx0 fy0 fx1 fy1 (q + f.w * tx0) (f.y + f.h * ty0)
              (q + f.w * tx1) (f.y + f.h * ty1) < best
          · rw [show nearestLoop ld condition ff fx0 fy0 fx1 fy1 tx0 ty0 tx1 ty1
                (f :: rest) pl nf best =
                nearestLoop ld condition ff fx0 fy0 fx1 fy1 tx0 ty0 tx1 ty1 rest pl (some f)
                  (ld fx0 fy0 fx1 fy1 (q + f.w * tx0) (f.y + f.h * ty0)
                    (q + f.w * tx1) (f.y + f.h * ty1))
              from by simp [nearestLoop, hf, hx, hc, hlt]] at h
            rcases ih pl (some f)
                (ld fx0 fy0 fx1 fy1 (q + f.w * tx0) (f.y + f.h * ty0)
                  (q + f.w * tx1) (f.y + f.h * ty1)) g h with h2 | ⟨hmem, q2, hx2, hd2⟩
            · have hfg : f = g := Option.some.inj h2
              subst hfg
              exact Or.inr ⟨List.mem_cons_self _ _, q, hx, by rw [candDist]; exact hlt⟩
            · exact Or.inr ⟨List.mem_cons_of_mem _ hmem, q2, hx2, lt_trans hd2 hlt⟩
          · rw [show nearestLoop ld condition ff fx0 fy0 fx1 fy1 tx0 ty0 tx1 ty1
                (f :: rest) pl nf best =
                nearestLoop ld condition ff fx0 fy0 fx1 fy1 tx0 ty0 tx1 ty1 rest pl nf best
              from by simp [nearestLoop, hf, hx, hc, hlt]] at h
            rcases ih pl nf best g h with h2 | ⟨hmem, hq⟩
            · exact Or.inl h2
            · exact Or.inr ⟨List.mem_cons_of_mem _ hmem, hq⟩
        · rw [show nearestLoop ld condition ff fx0 fy0 fx1 fy1 tx0 ty0 tx1 ty1
              (f :: rest) pl nf best =
              nearestLoop ld condition ff fx0 fy0 fx1 fy1 tx0 ty0 tx1 ty1 rest pl nf best
            from by simp [nearestLoop, hf, hx, hc]] at h
          rcases ih pl nf best g h with h2 | ⟨hmem, hq⟩
          · exact Or.inl h2
          · exact Or.inr ⟨List.mem_cons_of_mem _ hmem, hq⟩

end Renpy

namespace Renpy

/-- C10: the minimum search of `focus_nearest` starts from
(65536*penalty)^2 with a strict comparison, so an admissible geometric
candidate at segment distance at least that threshold is never selected:
whenever every admissible candidate is that far (even a sole one), the
call falls back to a placeless region of the list or leaves the state
unchanged; and any region the loop does select is strictly below the
threshold. -/
theorem focus_nearest_threshold (s : FocusState)
    (fX0 fY0 fX1 fY1 tX0 tY0 tX1 tY1 : ℚ)
    (ld : ℚ → ℚ → ℚ → ℚ → ℚ → ℚ → ℚ → ℚ → ℚ) (condition : Focus → Focus → Bool)
    (pen xm ym wm hm : ℚ) (c : Widget) (ff : Focus) (fx : ℚ)
    (hfoc : s.focused = some c)
    (hfind : findWidget c s.focus_list = some ff)
    (hx : ff.x = some fx)
    (hfar : ∀ f ∈ s.focus_list, f ≠ ff → ∀ q, f.x = some q →
      condition ff f = true →
      (65536 * pen) ^ 2 ≤ candDist ld (fx + ff.w * fX0) (ff.y + ff.h * fY0)
        (fx + ff.w * fX1) (ff.y + ff.h * fY1) tX0 tY0 tX1 tY1 f q) :
    (∀ g, (nearestLoop ld condition ff (fx + ff.w * fX0) (ff.y + ff.h * fY0)
        (fx + ff.w * fX1) (ff.y + ff.h * fY1) tX0 tY0 tX1 tY1
        s.focus_list none none ((65536 * pen) ^ 2)).2.1 = some g →
      ∃ q, g.x = some q ∧
        candDist ld (fx + ff.w * fX0) (ff.y + ff.h * fY0) (fx + ff.w * fX1)
          (ff.y + ff.h * fY1) tX0 tY0 tX1 tY1 g q < (65536 * pen) ^ 2) ∧
    (focus_nearest s fX0 fY0 fX1 fY1 tX0 tY0 tX1 tY1 ld condition pen xm ym wm hm =
        (s, []) ∨
      ∃ p, p ∈ s.focus_list ∧ p.x = none ∧
        focus_nearest s fX0 fY0 fX1 fY1 tX0 tY0 tX1 tY1 ld condition pen xm ym wm hm =
          change_focus s (some p)) := by
  constructor
  · intro g hg
    rcases nearestLoop_sel ld condition ff (fx + ff.w * fX0) (ff.y + ff.h * fY0)
        (fx + ff.w * fX1) (ff.y + ff.h * fY1) tX0 tY0 tX1 tY1 s.focus_list
        none none ((65536 * pen) ^ 2) g hg with h2 | ⟨_, hq⟩
    · exact Option.noConfusion h2
    · exact hq
  · cases hl2 : s.focus_list with
    | nil =>
      left
      simp [focus_nearest, hl2]
    | cons f0 rest =>
      have hfindx : findWidget c (f0 :: rest) = some ff := by rw [← hl2]; exact hfind
      have hfarx : ∀ f ∈ (f0 :: rest), f ≠ ff → ∀ q, f.x = some q →
          condition ff f = true →
          (65536 * pen) ^ 2 ≤ candDist ld (fx + ff.w * fX0) (ff.y + ff.h * fY0)
            (fx + ff.w * fX1) (ff.y + ff.h * fY1) tX0 tY0 tX1 tY1 f q := by
        intro f hf
        exact hfar f (by rw [hl2]; exact hf)
      obtain ⟨hnf, hbest, hpl⟩ := nearestLoop_far ld condition ff
        (fx + ff.w * fX0) (ff.y + ff.h * fY0) (fx + ff.w * fX1) (ff.y + ff.h * fY1)
        tX0 tY0 tX1 tY1 (f0 :: rest) none none ((65536 * pen) ^ 2) hfarx
      rcases hpl with hpl | ⟨p, hp, hpx, hpl⟩
      · left
        simp only [focus_nearest, hl2, hfoc, hfindx, hx]
        rw [hnf, hpl]
      · right
        refine ⟨p, hp, hpx, ?_⟩
        simp only [focus_nearest, hl2, hfoc, hfindx, hx]
        rw [hnf, hpl]

end Renpy

namespace Renpy

/-- C10 witness: the list holds the current region fC, one admissible
geometric candidate fD whose distance comes out exactly at the threshold
(65536*1)^2 (the constant distance function), and the placeless fP; the
sole admissible candidate is ignored and the call falls back to the
placeless region or leaves the state unchanged. -/
theorem focus_nearest_threshold_witness :
    focus_nearest nearS 0 0 0 0 0 0 0 0 (fun _ _ _ _ _ _ _ _ => (65536 : ℚ) ^ 2)
        (fun _ _ => true) 1 0 0 0 0 = (nearS, []) ∨
    ∃ p, p ∈ nearS.focus_list ∧ p.x = none ∧
      focus_nearest nearS 0 0 0 0 0 0 0 0 (fun _ _ _ _ _ _ _ _ => (65536 : ℚ) ^ 2)
        (fun _ _ => true) 1 0 0 0 0 = change_focus nearS (some p) :=
  (focus_nearest_threshold nearS 0 0 0 0 0 0 0 0
    (fun _ _ _ _ _ _ _ _ => (65536 : ℚ) ^ 2) (fun _ _ => true) 1 0 0 0 0 w1 fC 0
    rfl rfl rfl (by
      intro f hf hne q hq hc
      norm_num [candDist])).2

end Renpy

namespace Renpy

/-- C8 witness: in the two-region scenario the first-hit characterization
selects region A for the pointer at (5,5). -/
theorem mouse_handler_spec_witness :
    mouseSelect 5 5 mhState.focus_list none = some fA :=
  (mouse_handler_spec mhState 5 5).2.1 [] fA [fB] rfl
    (by norm_num [hitB, fA]) (by simp)

end Renpy
